import Mathlib

/-!
Shallow embedding of the paragone i18n library (`src/lib/i18n/i18n.ts`,
config-based version) in Lean 4, together with theorems settling the
specification claims about it.

Modelling conventions:
* JavaScript strings are `List Char`.
* The process-wide mutable `config` is modelled by explicit state passing:
  `configure` is a pure function from a configuration and a partial update to
  the new configuration.
* JavaScript numbers are modelled as an inductive `JsNum` with `nan`,
  `posInf`, `negInf` and exact rationals.  Exact rationals idealize IEEE
  doubles; for the short decimal quality values occurring in
  `Accept-Language` headers the two agree.
* `cookies.get` is modelled as association-list lookup returning
  `Option (List Char)` (JS `string | undefined`).
* Fallible operations return `Option`; there is no exception mechanism in the
  source and none in the model.
-/

namespace Paragone

/-- ASCII whitespace recognised by JavaScript `trim` / `parseFloat`
(space, tab, LF, VT, FF, CR).  JavaScript additionally strips some Unicode
space code points, which do not occur in the library's inputs. -/
def isJsSpace (c : Char) : Bool :=
  c = ' ' || c = '\t' || c = '\n' || c = '\r' || c.toNat = 11 || c.toNat = 12

/-- Model of `String.prototype.trim`: strip leading and trailing whitespace. -/
def jsTrim (s : List Char) : List Char :=
  ((s.dropWhile isJsSpace).reverse.dropWhile isJsSpace).reverse

/-- Worker for `jsSplit`: `acc` holds the current chunk reversed.  A `skip`
count greater than zero means that many upcoming characters belong to an
already-recognised separator occurrence and are consumed without scanning
(this keeps the recursion structural on the subject string). -/
def splitGo (sep : List Char) : Nat → List Char → List Char → List (List Char)
  | _, acc, [] => [acc.reverse]
  | skip + 1, acc, _ :: rest => splitGo sep skip acc rest
  | 0, acc, c :: rest =>
    if sep ≠ [] ∧ sep.isPrefixOf (c :: rest) then
      acc.reverse :: splitGo sep (sep.length - 1) [] rest
    else
      splitGo sep 0 (c :: acc) rest

/-- Model of `String.prototype.split` with a string separator.  For a non-empty
separator this splits on each leftmost, non-overlapping occurrence; the
result always has at least one (possibly empty) chunk.  An empty separator
splits into single characters, as in JavaScript (unused by the library). -/
def jsSplit (sep s : List Char) : List (List Char) :=
  if sep = [] then s.map (fun c => [c]) else splitGo sep 0 [] s

/-- Model of `String.prototype.toLowerCase`, ASCII part (`Char.toLower` maps `A`–`Z`
to `a`–`z` and leaves everything else unchanged, as JS does on ASCII). -/
def jsToLower (s : List Char) : List Char := s.map Char.toLower

/-! ## The translation value tree

`type TranslationValue = string | Record<string, unknown>` where the
`unknown` leaves reachable at runtime may also be arrays, numbers, booleans
or null.  Objects are association lists of own properties.  (JavaScript
property access can also surface `Object.prototype` members, none of which
is a string or a string-leaved object, so every such access still ends in
the "return the key" branch; the association-list model is observationally
equivalent for `t` and `has`.) -/

inductive TransValue where
  | str (s : List Char)
  | obj (fields : List (List Char × TransValue))
  | arr (elems : List TransValue)
  | jnull
  | num (q : ℚ)
  | bool (b : Bool)

/-- JavaScript property read `value[k]` on a plain object. -/
def getField : List (List Char × TransValue) → List Char → Option TransValue
  | [], _ => none
  | (k, v) :: rest, key => if k = key then some v else getField rest key

/-- The loop of `t`/`has`:
`if (value && typeof value === "object" && !Array.isArray(value))` descend,
else abort.  Only `obj` passes the guard: strings/numbers/booleans fail the
`typeof` test (and `""`, `0`, `false` are additionally falsy), `null` and
`undefined` are falsy, and arrays are excluded explicitly.  An abort, and a
missing property (`undefined`, here `none`) reaching the end of the loop,
both end with a non-string value. -/
def walk : Option TransValue → List (List Char) → Option TransValue
  | v, [] => v
  | some (TransValue.obj fs), k :: ks => walk (getField fs k) ks
  | some (TransValue.str _), _ :: _ => none
  | some (TransValue.arr _), _ :: _ => none
  | some TransValue.jnull, _ :: _ => none
  | some (TransValue.num _), _ :: _ => none
  | some (TransValue.bool _), _ :: _ => none
  | none, _ :: _ => none

/-- The dictionary type `Record<string, Record<string, TranslationValue>>`. -/
def Translations : Type := List (List Char × List (List Char × TransValue))

/-- The root value `this.translations[this.locale]` (an object when the locale is present,
`undefined` otherwise). -/
def rootValue (tr : Translations) (loc : List Char) : Option TransValue :=
  match tr with
  | [] => none
  | (k, fields) :: rest => if k = loc then some (TransValue.obj fields) else rootValue rest loc

/-! ## Placeholder interpolation

The source builds `new RegExp("{{" ++ k ++ "}}", "g")` per variable (no `u`
flag, so the ECMAScript Annex B pattern grammar applies) and calls
`text.replace(re, String(v))`.  The model covers exactly the regime in which
that pattern is a *literal* one: by the Annex B grammar, a name that is
non-empty, ASCII alphanumeric and contains at least one letter makes every
character of `{{name}}` a literal atom (no braced sequence inside it parses
as a quantifier), so the regex denotes the literal placeholder text.  Every
interpolation theorem below assumes this regime through `plainName`.  Two
behaviours of the source are deliberately outside the model and assumed away
by those hypotheses: an all-digit name `n` turns the inner brace sequence
into the braced quantifier `{n}` (for example the pattern `{{2}}` matches
two open braces followed by one close brace, never the placeholder text
`{{2}}`), and a pattern-invalid name (such as `(`, giving an unterminated
group) makes the RegExp constructor throw a SyntaxError — an error path this
total model cannot represent, recorded as a divergence of the code from its
never-throws contract.  The replacement string is expanded with the
JavaScript `$` substitution rules that are live for a pattern without
capture groups: `$$`, `$&` (matched text), dollar-backtick (text before the
match) and dollar-quote (text after the match); any other `$` is literal.
Variable values are supplied already in their `String(v)` form. -/

def lbrace : Char := Char.ofNat 123
def rbrace : Char := Char.ofNat 125
def btickChar : Char := Char.ofNat 96
def squoteChar : Char := Char.ofNat 39

/-- Expand a replacement template at one match site.  `matched` is the
matched text, `before`/`after` the parts of the subject string around it. -/
def expandTmpl (matched before after : List Char) : List Char → List Char
  | [] => []
  | [c] => [c]
  | c :: d :: rest =>
    if c = '$' then
      if d = '$' then '$' :: expandTmpl matched before after rest
      else if d = '&' then matched ++ expandTmpl matched before after rest
      else if d = btickChar then before ++ expandTmpl matched before after rest
      else if d = squoteChar then after ++ expandTmpl matched before after rest
      else c :: expandTmpl matched before after (d :: rest)
    else c :: expandTmpl matched before after (d :: rest)

/-- Scanner for global replace: walk the subject left to right, rewriting
each leftmost, non-overlapping occurrence of `pat` and resuming after it.
`pre` is the already-consumed prefix, reversed.  A `skip` count greater than
zero means that many upcoming characters belong to the just-rewritten match
and are consumed without being emitted or rescanned (this keeps the
recursion structural on the subject string). -/
def raGo (pat tmpl : List Char) : Nat → List Char → List Char → List Char
  | _, _, [] => []
  | skip + 1, pre, _ :: rest => raGo pat tmpl skip pre rest
  | 0, pre, c :: rest =>
    if pat.isPrefixOf (c :: rest) then
      expandTmpl pat pre.reverse (List.drop (pat.length - 1) rest) tmpl
        ++ raGo pat tmpl (pat.length - 1) (pat.reverse ++ pre) rest
    else
      c :: raGo pat tmpl 0 (c :: pre) rest

/-- Model of `text.replace(new RegExp(pat, "g"), tmpl)` for a literal pattern.  The
patterns built by the source are `\x7b\x7bname\x7d\x7d` and never empty; the
empty-pattern guard only keeps the model total. -/
def jsReplaceAll (pat tmpl s : List Char) : List Char :=
  if pat = [] then s else raGo pat tmpl 0 [] s

/-- The pattern text `\x7b\x7bname\x7d\x7d` built for one variable. -/
def phPat (name : List Char) : List Char :=
  lbrace :: lbrace :: (name ++ [rbrace, rbrace])

/-- The `Object.entries(vars).reduce(...)` fold of `t`: one global replace
per variable, in entry (insertion) order.  An absent `vars` behaves like the
empty list. -/
def interpolate (vars : List (List Char × List Char)) (s : List Char) : List Char :=
  vars.foldl (fun text kv => jsReplaceAll (phPat kv.1) kv.2 text) s

/-! ## The configuration store -/

inductive SameSite where
  | strict
  | lax
  | noneVal
deriving DecidableEq

structure CookieOptions where
  path : List Char
  maxAge : Option Int
  sameSite : Option SameSite
  httpOnly : Option Bool
  secure : Option Bool
deriving DecidableEq

structure ParagoneConfig where
  cookieName : List Char
  defaultLanguage : List Char
  supportedLanguages : List (List Char)
  cookieOptions : CookieOptions
deriving DecidableEq

/-- The update type `Partial<ParagoneConfig>`: a field that is `none` is absent from the
partial object. -/
structure PartialCookieOptions where
  path : Option (List Char)
  maxAge : Option Int
  sameSite : Option SameSite
  httpOnly : Option Bool
  secure : Option Bool

structure PartialParagoneConfig where
  cookieName : Option (List Char)
  defaultLanguage : Option (List Char)
  supportedLanguages : Option (List (List Char))
  cookieOptions : Option PartialCookieOptions

/-- The merge `\x7b...config.cookieOptions, ...options.cookieOptions\x7d`: spread of the
partial attribute object over the current one, key by key. -/
def mergeCookieOptions (cur : CookieOptions) : Option PartialCookieOptions → CookieOptions
  | none => cur
  | some p =>
    { path := p.path.getD cur.path
      maxAge := match p.maxAge with | some v => some v | none => cur.maxAge
      sameSite := match p.sameSite with | some v => some v | none => cur.sameSite
      httpOnly := match p.httpOnly with | some v => some v | none => cur.httpOnly
      secure := match p.secure with | some v => some v | none => cur.secure }

/-- The function `configure(options)`: spread `options` over the current config at the
top level, with the cookie-attribute object merged key by key instead of
being replaced. -/
def configure (cfg : ParagoneConfig) (o : PartialParagoneConfig) : ParagoneConfig :=
  { cookieName := o.cookieName.getD cfg.cookieName
    defaultLanguage := o.defaultLanguage.getD cfg.defaultLanguage
    supportedLanguages := o.supportedLanguages.getD cfg.supportedLanguages
    cookieOptions := mergeCookieOptions cfg.cookieOptions o.cookieOptions }

/-- The function `getConfig()` returns the current configuration. -/
def getConfig (cfg : ParagoneConfig) : ParagoneConfig := cfg

/-- The module-level defaults of `i18n.ts`. -/
def defaultConfig : ParagoneConfig :=
  { cookieName := "language".data
    defaultLanguage := "en".data
    supportedLanguages := ["en".data, "de".data]
    cookieOptions :=
      { path := "/".data
        maxAge := some (60 * 60 * 24 * 365)
        sameSite := some SameSite.lax
        httpOnly := some false
        secure := none } }

/-- The empty partial object `{}`. -/
def emptyPartial : PartialParagoneConfig :=
  { cookieName := none, defaultLanguage := none, supportedLanguages := none
    cookieOptions := none }

/-! ## The translator class -/

structure I18nInst where
  translations : Translations
  locale : List Char

/-- The constructor `new I18n(translations, locale?)`; `locale || config.defaultLanguage`
makes both an omitted and an empty-string locale fall back to the default
language configured at construction time. -/
def mkI18n (cfg : ParagoneConfig) (tr : Translations) (locale : Option (List Char)) : I18nInst :=
  { translations := tr
    locale := match locale with
      | some l => if l = [] then cfg.defaultLanguage else l
      | none => cfg.defaultLanguage }

/-- Method `getLocale()`. -/
def getLocaleFn (i : I18nInst) : List Char := i.locale

/-- The key walk shared by `t` and `has`. -/
def tResolve (i : I18nInst) (key : List Char) : Option TransValue :=
  walk (rootValue i.translations i.locale) (jsSplit ['.'] key)

/-- Method `t(key, vars?)`. -/
def tFn (i : I18nInst) (key : List Char) (vars : List (List Char × List Char)) : List Char :=
  match tResolve i key with
  | some (TransValue.str s) => interpolate vars s
  | _ => key

/-- Method `has(key)`. -/
def hasFn (i : I18nInst) (key : List Char) : Bool :=
  match tResolve i key with
  | some (TransValue.str _) => true
  | _ => false

/-! ## JavaScript numbers and `parseFloat` -/

inductive JsNum where
  | nan
  | posInf
  | negInf
  | fin (q : ℚ)
deriving DecidableEq

def digitVal (c : Char) : ℕ := c.toNat - 48

def natOfDigits (ds : List Char) : ℕ := ds.foldl (fun n c => 10 * n + digitVal c) 0

/-- The value of the exponent continuation after `e`/`E`: optional sign then
digits.  If the digits are missing the exponent marker is not part of the
parsed literal and the exponent is 0. -/
def expVal (rest : List Char) : Int :=
  match rest with
  | '+' :: r => (natOfDigits (r.takeWhile Char.isDigit) : Int)
  | '-' :: r =>
    if r.takeWhile Char.isDigit = [] then 0
    else -(natOfDigits (r.takeWhile Char.isDigit) : Int)
  | r => (natOfDigits (r.takeWhile Char.isDigit) : Int)

def parseExpPart (s : List Char) : Int :=
  match s with
  | c :: rest => if c = 'e' ∨ c = 'E' then expVal rest else 0
  | [] => 0

/-- Value of `sign × intDs . fracDs × 10^e`, built with `mkRat` from an
integer mantissa and a power-of-ten denominator (the same rational as
`sign * (int + frac/10^|frac|) * 10^e`). -/
def decValue (sign : Int) (intDs fracDs : List Char) (e : Int) : ℚ :=
  let mant : Int := sign * ((natOfDigits intDs : Int) * 10 ^ fracDs.length + natOfDigits fracDs)
  let e' : Int := e - fracDs.length
  if 0 ≤ e' then mkRat (mant * 10 ^ e'.toNat) 1 else mkRat mant (10 ^ (-e').toNat)

/-- Model of `parseFloat`: skip leading whitespace, optional sign, then the longest
`StrDecimalLiteral` prefix (`Infinity`, digits with optional fraction and
exponent, or a leading-dot fraction); `nan` when no prefix parses.  Exact
rationals stand in for IEEE doubles. -/
def parseFloat (s : List Char) : JsNum :=
  let s₁ := s.dropWhile isJsSpace
  let signAndRest : Int × List Char :=
    match s₁ with
    | '+' :: r => (1, r)
    | '-' :: r => (-1, r)
    | r => (1, r)
  let sign := signAndRest.1
  let s₂ := signAndRest.2
  if ("Infinity".data).isPrefixOf s₂ then
    (if sign = 1 then JsNum.posInf else JsNum.negInf)
  else
    let intDs := s₂.takeWhile Char.isDigit
    let rest₁ := s₂.dropWhile Char.isDigit
    if intDs = [] then
      match rest₁ with
      | '.' :: r =>
        let fracDs := r.takeWhile Char.isDigit
        if fracDs = [] then JsNum.nan
        else JsNum.fin (decValue sign [] fracDs (parseExpPart (r.dropWhile Char.isDigit)))
      | _ => JsNum.nan
    else
      match rest₁ with
      | '.' :: r =>
        let fracDs := r.takeWhile Char.isDigit
        JsNum.fin (decValue sign intDs fracDs (parseExpPart (r.dropWhile Char.isDigit)))
      | _ => JsNum.fin (decValue sign intDs [] (parseExpPart rest₁))

/-! ## Locale resolution -/

structure Cand where
  code : List Char
  priority : JsNum
deriving DecidableEq

def sepQ : List Char := [';', 'q', '=']

/-- One entry of the header:
`const [code, priority] = lang.trim().split(";q=")`, then
`code.split("-")[0].toLowerCase()` and
`priority ? parseFloat(priority) : 1.0` (an absent or empty quality part is
falsy and defaults to 1; any other string goes through `parseFloat`). -/
def parseEntry (lang : List Char) : Cand :=
  let parts := jsSplit sepQ (jsTrim lang)
  let code0 := parts.headD []
  let priority : JsNum :=
    match parts with
    | _ :: p :: _ => if p = [] then JsNum.fin 1 else parseFloat p
    | _ => JsNum.fin 1
  { code := jsToLower ((jsSplit ['-'] code0).headD []), priority := priority }

def parseHeader (h : List Char) : List Cand :=
  (jsSplit [','] h).map parseEntry

/-- Is a JavaScript number negative?  (`NaN` compares false.) -/
def jsNumIsNeg : JsNum → Bool
  | JsNum.nan => false
  | JsNum.posInf => false
  | JsNum.negInf => true
  | JsNum.fin q => decide (q < 0)

/-- Subtraction of rationals by cross multiplication through `mkRat`
(definitionally computable; equal to `a - b`, see `ratSub_eq`). -/
def ratSub (a b : ℚ) : ℚ :=
  mkRat (a.num * b.den - b.num * a.den) (a.den * b.den)

/-- JavaScript subtraction on the modelled numbers. -/
def jsSub : JsNum → JsNum → JsNum
  | JsNum.nan, _ => JsNum.nan
  | JsNum.posInf, JsNum.nan => JsNum.nan
  | JsNum.posInf, JsNum.posInf => JsNum.nan
  | JsNum.posInf, JsNum.negInf => JsNum.posInf
  | JsNum.posInf, JsNum.fin _ => JsNum.posInf
  | JsNum.negInf, JsNum.nan => JsNum.nan
  | JsNum.negInf, JsNum.posInf => JsNum.negInf
  | JsNum.negInf, JsNum.negInf => JsNum.nan
  | JsNum.negInf, JsNum.fin _ => JsNum.negInf
  | JsNum.fin _, JsNum.nan => JsNum.nan
  | JsNum.fin _, JsNum.posInf => JsNum.negInf
  | JsNum.fin _, JsNum.negInf => JsNum.posInf
  | JsNum.fin a, JsNum.fin b => JsNum.fin (ratSub a b)

/-- Does `x` strictly precede `y` under `sort((a, b) => b.priority - a.priority)`:
the comparator value `y.priority - x.priority` is negative.  A `NaN`
comparator value counts as 0 (a tie), per `SortCompare`. -/
def candPrecB (x y : Cand) : Bool :=
  jsNumIsNeg (jsSub y.priority x.priority)

/-- Stable insertion: a later element is placed after every element it does
not strictly precede, so elements the comparator ties keep their original
relative order. -/
def insertCand (x : Cand) : List Cand → List Cand
  | [] => [x]
  | y :: ys => if candPrecB x y then x :: y :: ys else y :: insertCand x ys

/-- Model of `Array.prototype.sort` with the priority comparator, as the stable sort
required by ECMAScript for consistent comparators. -/
def jsSortCands (l : List Cand) : List Cand :=
  l.foldl (fun acc x => insertCand x acc) []

/-- The function `getBrowserLanguage(acceptLanguage)`. -/
def getBrowserLanguage (cfg : ParagoneConfig) (acceptLanguage : Option (List Char)) :
    List Char :=
  match acceptLanguage with
  | none => cfg.defaultLanguage
  | some h =>
    if h = [] then cfg.defaultLanguage
    else
      match (jsSortCands (parseHeader h)).find?
          (fun c => cfg.supportedLanguages.contains c.code) with
      | some c => c.code
      | none => cfg.defaultLanguage

/-- The read `cookies.get(name)` on a cookie store. -/
def lookupCookie : List (List Char × List Char) → List Char → Option (List Char)
  | [], _ => none
  | (k, v) :: rest, name => if k = name then some v else lookupCookie rest name

/-- The function `getLanguage(cookies, acceptLanguage)`:
`cookies.get(config.cookieName) || getBrowserLanguage(acceptLanguage)`
(an absent or empty cookie value is falsy). -/
def getLanguage (cfg : ParagoneConfig) (cookies : List (List Char × List Char))
    (acceptLanguage : Option (List Char)) : List Char :=
  match lookupCookie cookies cfg.cookieName with
  | some v => if v = [] then getBrowserLanguage cfg acceptLanguage else v
  | none => getBrowserLanguage cfg acceptLanguage

/-! ## Spec-side notions used to state the claims

`numLeB` is the intended quality order ("sorted by descending quality"),
`filtP` extracts the subsequence of one quality level (for stability),
and `Seg`/`substSpec` express a translation string as literal chunks and
placeholders with its simultaneous placeholder substitution, following the
spec's words; the claim theorems compare the code-side functions above
against these. -/

/-- Order on the modelled numbers (junk on `nan`, which the claim theorems
exclude): is `p` less than or equal to `q`? -/
def numLeB : JsNum → JsNum → Bool
  | JsNum.negInf, _ => true
  | _, JsNum.posInf => true
  | JsNum.fin a, JsNum.fin b => decide (a ≤ b)
  | _, _ => false

/-- "Descending quality" between adjacent sorted candidates: the later one's
quality is at most the earlier one's. -/
def candDescP (a b : Cand) : Prop := numLeB b.priority a.priority = true

/-- The subsequence of candidates having exactly quality `p`, used to state
stability: a stable sort preserves each such subsequence. -/
def filtP (p : JsNum) (l : List Cand) : List Cand :=
  l.filter (fun c => c.priority = p)

/-- No candidate in the list has a `nan` priority (every quality value of
the header parsed). -/
def CandOk (l : List Cand) : Prop := ∀ c ∈ l, c.priority ≠ JsNum.nan

instance (l : List Cand) : Decidable (CandOk l) :=
  inferInstanceAs (Decidable (∀ c ∈ l, c.priority ≠ JsNum.nan))

/-- A piece of a translation string: a literal chunk or a placeholder
`\x7b\x7bname\x7d\x7d`. -/
inductive Seg where
  | lit (s : List Char)
  | ph (name : List Char)

def renderSeg : Seg → List Char
  | Seg.lit s => s
  | Seg.ph n => phPat n

/-- The translation string denoted by a segment list. -/
def render (segs : List Seg) : List Char := (segs.map renderSeg).flatten

/-- Lookup of a variable name in the variable map (`x` present in `V`). -/
def lookupVar : List (List Char × List Char) → List Char → Option (List Char)
  | [], _ => none
  | (k, v) :: rest, name => if k = name then some v else lookupVar rest name

/-- Simultaneous substitution following the spec's words: a placeholder whose
name is present in the variable map becomes the variable's value, a
placeholder with no matching variable stays verbatim, literal chunks are
untouched. -/
def substSeg (vars : List (List Char × List Char)) : Seg → List Char
  | Seg.lit s => s
  | Seg.ph n =>
    match lookupVar vars n with
    | some v => v
    | none => phPat n

def substSpec (vars : List (List Char × List Char)) (segs : List Seg) : List Char :=
  (segs.map (substSeg vars)).flatten

/-- A variable name for which the RegExp `\x7b\x7bname\x7d\x7d` built by the
source is the literal placeholder text: non-empty, ASCII alphanumeric, and
containing at least one letter.  The letter requirement is what rules out a
braced quantifier: a quantifier needs `\x7b` followed by decimal digits up
to the next `\x7d` or comma, and an alphanumeric name supplies that close
brace only after the whole name, so some quantifier parses exactly when the
name is all digits.  Names outside this predicate (all-digit names, and
names that make the pattern invalid so the constructor throws) are outside
the interpolation model. -/
def plainName (n : List Char) : Bool :=
  (!n.isEmpty && n.all Char.isAlphanum) && n.any Char.isAlpha

/-- A literal chunk containing no brace characters. -/
def litOkB (s : List Char) : Bool := s.all (fun c => c != lbrace && c != rbrace)

/-- A substituted value containing no braces (it cannot create or destroy
placeholders) and no `$` (inert as a replacement template). -/
def valOkB (v : List Char) : Bool :=
  v.all (fun c => c != lbrace && c != rbrace && c != '$')

def segsOkB (segs : List Seg) : Bool :=
  segs.all (fun sg => match sg with | Seg.lit s => litOkB s | Seg.ph n => plainName n)

def varsOkB (vars : List (List Char × List Char)) : Bool :=
  vars.all (fun kv => plainName kv.1 && valOkB kv.2)

/-- The effect of one `text.replace(new RegExp(..k..,"g"), v)` pass on a
segment: the placeholders named `k` become the literal chunk `v`. -/
def replSeg (k v : List Char) : Seg → Seg
  | Seg.lit s => Seg.lit s
  | Seg.ph n => if n = k then Seg.lit v else Seg.ph n

/-- A sample dictionary used by concrete witnesses. -/
def exDict : Translations :=
  [("en".data,
    [("simple".data, TransValue.str "Hello".data),
     ("nav".data, TransValue.obj [("home".data, TransValue.str "Home".data)]),
     ("list".data, TransValue.arr [])])]

/-! # Theorems -/

theorem walk_none (s : List (List Char)) : walk none s = none := by
  cases s <;> rfl

theorem walk_append (v : Option TransValue) (s₁ s₂ : List (List Char)) :
    walk v (s₁ ++ s₂) = walk (walk v s₁) s₂ := by
  induction s₁ generalizing v with
  | nil => simp [walk]
  | cons k ks ih =>
    cases v with
    | none => simp [walk, walk_none]
    | some tv => cases tv <;> simp [walk, walk_none, ih]

theorem tFn_eq_key (i : I18nInst) (key : List Char) (vars : List (List Char × List Char))
    (h : ∀ s, tResolve i key ≠ some (TransValue.str s)) : tFn i key vars = key := by
  unfold tFn
  cases hres : tResolve i key with
  | none => rfl
  | some v =>
    cases v with
    | str s => exact absurd hres (h s)
    | obj fs => rfl
    | arr a => rfl
    | jnull => rfl
    | num q => rfl
    | bool b => rfl

theorem hasFn_eq_false (i : I18nInst) (key : List Char)
    (h : ∀ s, tResolve i key ≠ some (TransValue.str s)) : hasFn i key = false := by
  unfold hasFn
  cases hres : tResolve i key with
  | none => rfl
  | some v =>
    cases v with
    | str s => exact absurd hres (h s)
    | obj fs => rfl
    | arr a => rfl
    | jnull => rfl
    | num q => rfl
    | bool b => rfl

/-- C5 (code-bug record): the true half of the claim — whenever the
dotted-key walk fails (missing locale, missing segment, or a non-mapping
value met while segments remain, in all of which cases the walk yields no
value), `t` returns the key unchanged for every variable-map input, since
the source returns before any replacement work.  The never-raises half is
wrong of the code: the concrete conjuncts evaluate the code at the failing
input — the key `greeting` resolves to a string, so execution reaches
`new RegExp("\x7b\x7b" + k + "\x7d\x7d", "g")` for each variable name, and
the name `(` yields the pattern-invalid `\x7b\x7b(\x7d\x7d` (unterminated
group), making the constructor throw a SyntaxError; that name lies outside
the literal-pattern fragment this total model covers. -/
theorem t_fail_open (i : I18nInst) (key : List Char) (vars : List (List Char × List Char)) :
    (tResolve i key = none → tFn i key vars = key) ∧
    tResolve (mkI18n defaultConfig
        [("en".data, [("greeting".data, TransValue.str "Hello, \x7b\x7bname\x7d\x7d!".data)])]
        (some "en".data)) "greeting".data =
      some (TransValue.str "Hello, \x7b\x7bname\x7d\x7d!".data) ∧
    plainName "(".data = false := by
  refine ⟨?_, by rfl, by decide⟩
  intro h
  exact tFn_eq_key i key vars (fun s hs => by rw [h] at hs; cases hs)

theorem t_fail_open_witness :
    tFn (mkI18n defaultConfig exDict (some "en".data)) "missing".data [] = "missing".data :=
  (t_fail_open (mkI18n defaultConfig exDict (some "en".data)) "missing".data []).1 (by rfl)

/-- C6: `has` is true exactly when the walk completes on a string value; on
every failure mode it is false, and in particular when the path resolves to
a sub-mapping `has` is false and `t` returns the key unchanged. -/
theorem has_iff_string (i : I18nInst) (key : List Char) :
    (hasFn i key = true ↔ ∃ s, tResolve i key = some (TransValue.str s)) ∧
    (∀ fs, tResolve i key = some (TransValue.obj fs) →
      hasFn i key = false ∧ ∀ vars, tFn i key vars = key) := by
  constructor
  · constructor
    · intro h
      unfold hasFn at h
      revert h
      cases hres : tResolve i key with
      | none => intro h; cases h
      | some v =>
        cases v with
        | str s => intro _; exact ⟨s, rfl⟩
        | obj fs => intro h; cases h
        | arr a => intro h; cases h
        | jnull => intro h; cases h
        | num q => intro h; cases h
        | bool b => intro h; cases h
    · rintro ⟨s, hs⟩
      unfold hasFn
      rw [hs]
  · intro fs h
    refine ⟨?_, fun vars => tFn_eq_key i key vars (fun s hs => by simp [h] at hs)⟩
    unfold hasFn
    rw [h]

theorem has_iff_string_witness :
    hasFn (mkI18n defaultConfig exDict (some "en".data)) "simple".data = true ∧
    hasFn (mkI18n defaultConfig exDict (some "en".data)) "nav".data = false ∧
    tFn (mkI18n defaultConfig exDict (some "en".data)) "nav".data [] = "nav".data := by
  have h := (has_iff_string (mkI18n defaultConfig exDict (some "en".data)) "nav".data).2
    [("home".data, TransValue.str "Home".data)] (by rfl)
  exact ⟨(has_iff_string (mkI18n defaultConfig exDict (some "en".data)) "simple".data).1.mpr
    ⟨"Hello".data, by rfl⟩, h.1, h.2 []⟩

/-- C10: if any step of the dotted-key walk reaches an array value, the walk
aborts: `t` returns the key unchanged and `has` returns false. -/
theorem array_aborts_walk (i : I18nInst) (key : List Char) (n : ℕ) (a : List TransValue)
    (h : walk (rootValue i.translations i.locale) ((jsSplit ['.'] key).take n) =
      some (TransValue.arr a)) :
    (∀ vars, tFn i key vars = key) ∧ hasFn i key = false := by
  have hres : ∀ s, tResolve i key ≠ some (TransValue.str s) := by
    intro s hs
    unfold tResolve at hs
    rw [← List.take_append_drop n (jsSplit ['.'] key), walk_append, h] at hs
    cases hdrop : (jsSplit ['.'] key).drop n with
    | nil => rw [hdrop] at hs; simp [walk] at hs
    | cons k ks => rw [hdrop] at hs; simp [walk, walk_none] at hs
  exact ⟨fun vars => tFn_eq_key i key vars hres, hasFn_eq_false i key hres⟩

theorem array_aborts_walk_witness :
    tFn (mkI18n defaultConfig exDict (some "en".data)) "list.x".data [] = "list.x".data ∧
    hasFn (mkI18n defaultConfig exDict (some "en".data)) "list.x".data = false := by
  have h := array_aborts_walk (mkI18n defaultConfig exDict (some "en".data)) "list.x".data 1 [] (by rfl)
  exact ⟨h.1 [], h.2⟩

/-- C7: a `configure` call whose partial object sets only
`cookieOptions.maxAge` updates exactly that attribute: the other cookie
attributes and all top-level fields are unchanged in `getConfig`. -/
theorem configure_merges_cookie_attrs (cfg : ParagoneConfig) (m : Int) :
    getConfig (configure cfg
      { cookieName := none, defaultLanguage := none, supportedLanguages := none
        cookieOptions := some
          { path := none, maxAge := some m, sameSite := none, httpOnly := none
            secure := none } }) =
      { cfg with cookieOptions := { cfg.cookieOptions with maxAge := some m } } := rfl

/-- C8: `configure` with the empty partial object is the identity on the
configuration observed through `getConfig`. -/
theorem configure_empty_id (cfg : ParagoneConfig) :
    getConfig (configure cfg emptyPartial) = getConfig cfg := rfl

/-- C4: a present non-empty cookie value is returned verbatim, regardless of
the header; with no cookie and a null or empty header, the configured
default language is returned. -/
theorem cookie_trusted_and_default (cfg : ParagoneConfig)
    (cookies : List (List Char × List Char)) (header : Option (List Char)) :
    (∀ s, lookupCookie cookies cfg.cookieName = some s → s ≠ [] →
      getLanguage cfg cookies header = s) ∧
    (lookupCookie cookies cfg.cookieName = none → (header = none ∨ header = some []) →
      getLanguage cfg cookies header = cfg.defaultLanguage) := by
  constructor
  · intro s hs hne
    unfold getLanguage
    rw [hs]
    simp [hne]
  · intro hnone hh
    unfold getLanguage
    rw [hnone]
    rcases hh with rfl | rfl
    · rfl
    · simp [getBrowserLanguage]

theorem cookie_trusted_and_default_witness :
    getLanguage defaultConfig [("language".data, "fr".data)] (some "en".data) = "fr".data ∧
    getLanguage defaultConfig [] (some []) = "en".data := by
  constructor
  · exact (cookie_trusted_and_default defaultConfig [("language".data, "fr".data)]
      (some "en".data)).1 "fr".data rfl (by decide)
  · exact (cookie_trusted_and_default defaultConfig [] (some [])).2 rfl (Or.inr rfl)

/-- C9 (amended): an instance constructed without a locale code uses the
default language of the configuration passed at construction, and
`getLocale` returns exactly the constructed locale code whenever that code
is non-empty; since the instance stores its locale by value, no later
`configure` result can change it. -/
theorem getLocale_construction (cfg : ParagoneConfig) (tr : Translations) :
    getLocaleFn (mkI18n cfg tr none) = cfg.defaultLanguage ∧
    ∀ l : List Char, l ≠ [] → getLocaleFn (mkI18n cfg tr (some l)) = l := by
  refine ⟨rfl, fun l hl => ?_⟩
  simp [getLocaleFn, mkI18n, hl]

theorem getLocale_construction_witness :
    getLocaleFn (mkI18n defaultConfig exDict (some "de".data)) = "de".data :=
  (getLocale_construction defaultConfig exDict).2 "de".data (by decide)

/-- C9 counterexample: an instance constructed with the empty-string locale
code does not get that code back from `getLocale`; the falsy check
`locale || config.defaultLanguage` replaces it by the default language. -/
theorem getLocale_empty_string_counterexample :
    getLocaleFn (mkI18n defaultConfig exDict (some [])) = "en".data ∧
    "en".data ≠ ([] : List Char) := by
  exact ⟨rfl, by decide⟩

theorem ratSub_eq (a b : ℚ) : ratSub a b = a - b := by
  have ha : ((a.den : ℚ)) ≠ 0 := by exact_mod_cast a.den_nz
  have hb : ((b.den : ℚ)) ≠ 0 := by exact_mod_cast b.den_nz
  rw [ratSub, Rat.mkRat_eq_div]
  conv_rhs => rw [← Rat.num_div_den a, ← Rat.num_div_den b]
  rw [div_sub_div _ _ ha hb]
  push_cast
  ring_nf

/-- The comparator direction: for non-`nan` priorities the comparator value
`q - p` is negative exactly when `p ≤ q` fails. -/
theorem jsNum_prec_iff (p q : JsNum) (hp : p ≠ JsNum.nan) (hq : q ≠ JsNum.nan) :
    jsNumIsNeg (jsSub q p) = !(numLeB p q) := by
  cases p with
  | nan => exact absurd rfl hp
  | posInf => cases q with
    | nan => exact absurd rfl hq
    | posInf => rfl
    | negInf => rfl
    | fin b => rfl
  | negInf => cases q with
    | nan => exact absurd rfl hq
    | posInf => rfl
    | negInf => rfl
    | fin b => rfl
  | fin a => cases q with
    | nan => exact absurd rfl hq
    | posInf => rfl
    | negInf => rfl
    | fin b =>
      show decide (ratSub b a < 0) = !decide (a ≤ b)
      rw [ratSub_eq, ← decide_not]
      apply decide_eq_decide.mpr
      rw [sub_neg]
      exact ⟨not_le_of_lt, lt_of_not_le⟩

theorem numLeB_refl (p : JsNum) (hp : p ≠ JsNum.nan) : numLeB p p = true := by
  cases p with
  | nan => exact absurd rfl hp
  | posInf => rfl
  | negInf => rfl
  | fin a => simp [numLeB]

theorem numLeB_total (p q : JsNum) (hp : p ≠ JsNum.nan) (hq : q ≠ JsNum.nan) :
    numLeB p q = true ∨ numLeB q p = true := by
  cases p <;> cases q <;> simp_all [numLeB]
  exact le_total _ _

theorem numLeB_trans (p q r : JsNum) (hq : q ≠ JsNum.nan)
    (h₁ : numLeB p q = true) (h₂ : numLeB q r = true) : numLeB p r = true := by
  cases p <;> cases q <;> cases r <;> simp_all [numLeB]
  exact le_trans h₁ h₂

theorem candPrecB_iff (x y : Cand) (hx : x.priority ≠ JsNum.nan)
    (hy : y.priority ≠ JsNum.nan) :
    candPrecB x y = !(numLeB x.priority y.priority) :=
  jsNum_prec_iff x.priority y.priority hx hy

theorem insertCand_perm (x : Cand) (l : List Cand) : (insertCand x l).Perm (x :: l) := by
  induction l with
  | nil => exact List.Perm.refl _
  | cons y ys ih =>
    rw [insertCand]
    by_cases hp : candPrecB x y = true
    · rw [if_pos hp]
    · rw [if_neg hp]
      exact (ih.cons y).trans (List.Perm.swap x y ys)

theorem mem_insertCand {c x : Cand} {l : List Cand} :
    c ∈ insertCand x l ↔ c = x ∨ c ∈ l := by
  rw [(insertCand_perm x l).mem_iff]
  simp

theorem insertCand_sorted (x : Cand) (l : List Cand) (hx : x.priority ≠ JsNum.nan)
    (hl : CandOk l) (hs : l.Pairwise candDescP) :
    (insertCand x l).Pairwise candDescP := by
  induction l with
  | nil => simp [insertCand, candDescP]
  | cons y ys ih =>
    have hy : y.priority ≠ JsNum.nan := hl y (by simp)
    have hys : CandOk ys := fun c hc => hl c (by simp [hc])
    obtain ⟨hyz, hys'⟩ := List.pairwise_cons.mp hs
    rw [insertCand]
    by_cases hp : candPrecB x y = true
    · rw [if_pos hp]
      have hxy : numLeB x.priority y.priority = false := by
        have := candPrecB_iff x y hx hy
        rw [hp] at this
        cases hle : numLeB x.priority y.priority with
        | false => rfl
        | true => rw [hle] at this; cases this
      have hyx : numLeB y.priority x.priority = true := by
        rcases numLeB_total x.priority y.priority hx hy with h | h
        · rw [h] at hxy; cases hxy
        · exact h
      refine List.pairwise_cons.mpr ⟨?_, hs⟩
      intro z hz
      rcases List.mem_cons.mp hz with rfl | hz'
      · exact hyx
      · exact numLeB_trans z.priority y.priority x.priority hy (hyz z hz') hyx
    · rw [if_neg hp]
      have hxyT : numLeB x.priority y.priority = true := by
        have := candPrecB_iff x y hx hy
        cases hle : numLeB x.priority y.priority with
        | true => rfl
        | false => rw [hle] at this; simp at this; exact absurd this hp
      refine List.pairwise_cons.mpr ⟨?_, ih hys hys'⟩
      intro z hz
      rcases mem_insertCand.mp hz with rfl | hz'
      · exact hxyT
      · exact hyz z hz'

theorem filtP_insert_ne (x : Cand) (l : List Cand) (p : JsNum)
    (hxp : x.priority ≠ p) : filtP p (insertCand x l) = filtP p l := by
  induction l with
  | nil => simp [insertCand, filtP, hxp]
  | cons y ys ih =>
    rw [insertCand]
    by_cases hp : candPrecB x y = true
    · rw [if_pos hp]
      simp [filtP, List.filter_cons, hxp]
    · rw [if_neg hp]
      simp only [filtP] at ih ⊢
      by_cases hyp : y.priority = p
      · simp [List.filter_cons, hyp, ih]
      · simp [List.filter_cons, hyp, ih]

theorem filtP_insert_eq (x : Cand) (l : List Cand) (hx : x.priority ≠ JsNum.nan)
    (hl : CandOk l) (hs : l.Pairwise candDescP) :
    filtP x.priority (insertCand x l) = filtP x.priority l ++ [x] := by
  induction l with
  | nil => simp [insertCand, filtP]
  | cons y ys ih =>
    have hy : y.priority ≠ JsNum.nan := hl y (by simp)
    have hys : CandOk ys := fun c hc => hl c (by simp [hc])
    obtain ⟨hyz, hys'⟩ := List.pairwise_cons.mp hs
    rw [insertCand]
    by_cases hp : candPrecB x y = true
    · rw [if_pos hp]
      have hxy : numLeB x.priority y.priority = false := by
        have := candPrecB_iff x y hx hy
        rw [hp] at this
        cases hle : numLeB x.priority y.priority with
        | false => rfl
        | true => rw [hle] at this; cases this
      have hempty : filtP x.priority (y :: ys) = [] := by
        rw [filtP, List.filter_eq_nil_iff]
        intro z hz
        simp only [decide_eq_true_eq]
        intro hzp
        have hzy : numLeB z.priority y.priority = true := by
          rcases List.mem_cons.mp hz with rfl | hz'
          · exact numLeB_refl z.priority (hzp ▸ hx)
          · exact hyz z hz'
        rw [hzp] at hzy
        rw [hzy] at hxy
        cases hxy
      rw [show filtP x.priority (x :: y :: ys) = x :: filtP x.priority (y :: ys) by
        simp [filtP, List.filter_cons]]
      rw [hempty]
      rfl
    · rw [if_neg hp]
      simp only [filtP] at ih ⊢
      by_cases hyp : y.priority = x.priority
      · simp [List.filter_cons, hyp, ih hys hys']
      · simp [List.filter_cons, hyp, ih hys hys']

theorem sortLoop_props (l : List Cand) :
    ∀ acc : List Cand, CandOk l → CandOk acc → acc.Pairwise candDescP →
    (List.foldl (fun acc x => insertCand x acc) acc l).Perm (acc ++ l) ∧
    (List.foldl (fun acc x => insertCand x acc) acc l).Pairwise candDescP ∧
    ∀ p, filtP p (List.foldl (fun acc x => insertCand x acc) acc l) =
      filtP p acc ++ filtP p l := by
  induction l with
  | nil =>
    intro acc _ _ hs
    refine ⟨by simp, hs, fun p => by simp [filtP]⟩
  | cons x l ih =>
    intro acc hl hacc hs
    have hx : x.priority ≠ JsNum.nan := hl x (by simp)
    have hl' : CandOk l := fun c hc => hl c (by simp [hc])
    have hacc' : CandOk (insertCand x acc) := fun c hc =>
      (mem_insertCand.mp hc).elim (fun h => h ▸ hx) (hacc c)
    have hs' := insertCand_sorted x acc hx hacc hs
    obtain ⟨hperm, hsort, hfilt⟩ := ih (insertCand x acc) hl' hacc' hs'
    refine ⟨?_, hsort, ?_⟩
    · exact hperm.trans ((((insertCand_perm x acc).append_right l).trans
        List.perm_middle.symm))
    · intro p
      rw [List.foldl_cons] at *
      rw [hfilt p]
      by_cases hxp : x.priority = p
      · subst hxp
        rw [filtP_insert_eq x acc hx hacc hs]
        simp [filtP, List.filter_cons]
      · rw [filtP_insert_ne x acc p hxp]
        simp [filtP, List.filter_cons, hxp]

/-- C3: with no cookie, the header is split on commas, each entry reduced to
its lowercased primary subtag; when every quality value parses, the
candidates are stably sorted by descending quality (a permutation, pairwise
descending, with each quality level kept in header order), the result is
the first sorted candidate whose code is supported and the default language
otherwise; in particular `de-DE,de;q=0.9,en;q=0.8` over `\x7ben,de\x7d`
resolves to `de`. -/
theorem browser_language_resolution (cfg : ParagoneConfig) (h : List Char)
    (hne : h ≠ []) (hq : CandOk (parseHeader h)) :
    parseHeader h = (jsSplit [','] h).map parseEntry ∧
    (∀ e, (parseEntry e).code =
      jsToLower ((jsSplit ['-'] ((jsSplit sepQ (jsTrim e)).headD [])).headD [])) ∧
    (jsSortCands (parseHeader h)).Perm (parseHeader h) ∧
    (jsSortCands (parseHeader h)).Pairwise candDescP ∧
    (∀ p, filtP p (jsSortCands (parseHeader h)) = filtP p (parseHeader h)) ∧
    getBrowserLanguage cfg (some h) =
      (match (jsSortCands (parseHeader h)).find?
          (fun c => cfg.supportedLanguages.contains c.code) with
       | some c => c.code
       | none => cfg.defaultLanguage) ∧
    getBrowserLanguage defaultConfig (some "de-DE,de;q=0.9,en;q=0.8".data) = "de".data := by
  have hok : CandOk ([] : List Cand) := fun c hc => absurd hc (List.not_mem_nil c)
  obtain ⟨hperm, hsort, hfilt⟩ :=
    sortLoop_props (parseHeader h) [] hq hok (List.Pairwise.nil)
  have hjs : jsSortCands (parseHeader h) =
      List.foldl (fun acc x => insertCand x acc) [] (parseHeader h) := rfl
  refine ⟨rfl, fun e => rfl, ?_, ?_, ?_, ?_, by decide⟩
  · rw [hjs]
    simpa using hperm
  · rw [hjs]
    exact hsort
  · intro p
    rw [hjs, hfilt p]
    simp [filtP]
  · simp only [getBrowserLanguage]
    rw [if_neg hne]

theorem browser_language_resolution_witness :
    getBrowserLanguage defaultConfig (some "de-DE,de;q=0.9,en;q=0.8".data) = "de".data :=
  (browser_language_resolution defaultConfig "de-DE,de;q=0.9,en;q=0.8".data
    (by decide) (by decide)).2.2.2.2.2.2

/-- C1 (amended): locale resolution is total on malformed quality values —
the result is always the default language or a supported parsed candidate —
but an entry whose quality part after the quality marker is present,
non-empty and unparsable gets priority `NaN`, not quality 1.0; under the
subtraction comparator `NaN` ties with every neighbour, so the candidate is
not ordered as if its quality were 1.0 (see the counterexample). -/
theorem malformed_quality_resolution (cfg : ParagoneConfig) (e : List Char) :
    (∀ c0 p rest, jsSplit sepQ (jsTrim e) = c0 :: p :: rest → p ≠ [] →
      parseFloat p = JsNum.nan →
      (parseEntry e).priority = JsNum.nan ∧ (parseEntry e).priority ≠ JsNum.fin 1) ∧
    (∀ h, getBrowserLanguage cfg (some h) = cfg.defaultLanguage ∨
      ∃ c, c ∈ jsSortCands (parseHeader h) ∧ getBrowserLanguage cfg (some h) = c.code ∧
        c.code ∈ cfg.supportedLanguages) := by
  constructor
  · intro c0 p rest hsplit hp hnan
    have hpr : (parseEntry e).priority = parseFloat p := by
      simp [parseEntry, hsplit, hp]
    rw [hpr, hnan]
    exact ⟨rfl, by simp⟩
  · intro h
    by_cases hne : h = []
    · subst hne
      left
      rfl
    · simp only [getBrowserLanguage]
      rw [if_neg hne]
      cases hfind : (jsSortCands (parseHeader h)).find?
          (fun c => cfg.supportedLanguages.contains c.code) with
      | none => left; rfl
      | some c =>
        right
        refine ⟨c, List.mem_of_find?_eq_some hfind, rfl, ?_⟩
        have hc := List.find?_some hfind
        simpa [List.contains, List.elem_iff] using hc

theorem malformed_quality_resolution_witness :
    (parseEntry "de;q=abc".data).priority = JsNum.nan ∧
    (getBrowserLanguage defaultConfig (some "fr".data) = defaultConfig.defaultLanguage ∨
      ∃ c, c ∈ jsSortCands (parseHeader "fr".data) ∧
        getBrowserLanguage defaultConfig (some "fr".data) = c.code ∧
        c.code ∈ defaultConfig.supportedLanguages) :=
  ⟨((malformed_quality_resolution defaultConfig "de;q=abc".data).1
      "de".data "abc".data [] (by decide) (by decide) (by decide)).1,
    (malformed_quality_resolution defaultConfig "fr".data).2 "fr".data⟩

theorem alnum_ne_lbrace {c : Char} (h : c.isAlphanum = true) : c ≠ lbrace := by
  intro heq
  rw [heq] at h
  exact absurd h (by decide)

theorem alnum_ne_rbrace {c : Char} (h : c.isAlphanum = true) : c ≠ rbrace := by
  intro heq
  rw [heq] at h
  exact absurd h (by decide)

theorem plainName_ne_nil {n : List Char} (h : plainName n = true) : n ≠ [] := by
  intro heq
  rw [heq] at h
  exact absurd h (by decide)

theorem plainName_alnum {n : List Char} (h : plainName n = true) :
    ∀ c ∈ n, c.isAlphanum = true := by
  have h1 := (Bool.and_eq_true _ _).mp h
  have h2 := (Bool.and_eq_true _ _).mp h1.1
  exact fun c hc => List.all_eq_true.mp h2.2 c hc

theorem litOkB_no_brace {s : List Char} (h : litOkB s = true) :
    ∀ c ∈ s, c ≠ lbrace ∧ c ≠ rbrace := by
  intro c hc
  have := List.all_eq_true.mp h c hc
  obtain ⟨h1, h2⟩ := (Bool.and_eq_true _ _).mp this
  exact ⟨bne_iff_ne.mp h1, bne_iff_ne.mp h2⟩

theorem valOkB_no_brace {v : List Char} (h : valOkB v = true) : litOkB v = true := by
  apply List.all_eq_true.mpr
  intro c hc
  have := List.all_eq_true.mp h c hc
  obtain ⟨h1, _⟩ := (Bool.and_eq_true _ _).mp this
  exact h1

theorem valOkB_no_dollar {v : List Char} (h : valOkB v = true) : ∀ c ∈ v, c ≠ '$' := by
  intro c hc
  have := List.all_eq_true.mp h c hc
  obtain ⟨_, h2⟩ := (Bool.and_eq_true _ _).mp this
  exact bne_iff_ne.mp h2

theorem phPat_ne_nil (k : List Char) : phPat k ≠ [] := by simp [phPat]

/-- A `$`-free replacement template is inert under `$` expansion. -/
theorem expandTmpl_no_dollar (m b a : List Char) :
    ∀ tmpl : List Char, (∀ c ∈ tmpl, c ≠ '$') → expandTmpl m b a tmpl = tmpl := by
  intro tmpl
  induction tmpl with
  | nil => intro _; rfl
  | cons c rest ih =>
    intro h
    cases rest with
    | nil => rfl
    | cons d rest' =>
      have hc : c ≠ '$' := h c (List.mem_cons_self c _)
      simp only [expandTmpl, if_neg hc]
      rw [ih (fun x hx => h x (List.mem_cons_of_mem c hx))]

theorem raGo_nil (pat tmpl : List Char) (skip : Nat) (pre : List Char) :
    raGo pat tmpl skip pre [] = [] := by
  cases skip <;> rfl

theorem raGo_cons_nomatch (pat tmpl pre : List Char) (c : Char) (rest : List Char)
    (h : pat.isPrefixOf (c :: rest) = false) :
    raGo pat tmpl 0 pre (c :: rest) = c :: raGo pat tmpl 0 (c :: pre) rest := by
  simp only [raGo, h]
  rfl

theorem raGo_skipConsume (pat tmpl : List Char) :
    ∀ (xs pre r : List Char), raGo pat tmpl xs.length pre (xs ++ r) = raGo pat tmpl 0 pre r := by
  intro xs
  induction xs with
  | nil => intro pre r; rfl
  | cons x xs ih =>
    intro pre r
    show raGo pat tmpl (xs.length + 1) pre (x :: (xs ++ r)) = _
    rw [show raGo pat tmpl (xs.length + 1) pre (x :: (xs ++ r)) =
      raGo pat tmpl xs.length pre (xs ++ r) from rfl]
    exact ih pre r

theorem isPrefixOf_append_self : ∀ (l r : List Char), l.isPrefixOf (l ++ r) = true := by
  intro l
  induction l with
  | nil => intro r; simp [List.isPrefixOf]
  | cons c l ih =>
    intro r
    simp only [List.cons_append, List.isPrefixOf_cons₂_self]
    exact ih r

/-- The match step of the scanner: at an exact occurrence of the pattern the
template is expanded and scanning resumes after the occurrence. -/
theorem raGo_match (pat tmpl pre r : List Char) (p₀ : Char) (ps : List Char)
    (hpat : pat = p₀ :: ps) :
    raGo pat tmpl 0 pre (pat ++ r) =
      expandTmpl pat pre.reverse r tmpl ++ raGo pat tmpl 0 (pat.reverse ++ pre) r := by
  subst hpat
  have hpre : (p₀ :: ps).isPrefixOf ((p₀ :: ps) ++ r) = true := isPrefixOf_append_self _ _
  show raGo (p₀ :: ps) tmpl 0 pre (p₀ :: (ps ++ r)) = _
  simp only [raGo]
  rw [show ((p₀ :: ps).isPrefixOf (p₀ :: (ps ++ r))) = true from hpre]
  simp only [if_true]
  have hlen : (p₀ :: ps).length - 1 = ps.length := by simp
  rw [hlen, List.drop_left, raGo_skipConsume]

/-- A run of characters none of which is the pattern's first character is
copied unchanged by the scanner. -/
theorem raGo_run_headMismatch (pat tmpl : List Char) (p₀ : Char) (ps : List Char)
    (hpat : pat = p₀ :: ps) :
    ∀ (s : List Char), (∀ c ∈ s, c ≠ p₀) → ∀ pre r,
      raGo pat tmpl 0 pre (s ++ r) = s ++ raGo pat tmpl 0 (s.reverse ++ pre) r := by
  intro s
  induction s with
  | nil => intro _ pre r; simp
  | cons c s ih =>
    intro hs pre r
    have hc : c ≠ p₀ := hs c (List.mem_cons_self c _)
    have hnm : pat.isPrefixOf (c :: (s ++ r)) = false := by
      rw [hpat]
      simp only [List.isPrefixOf]
      rw [beq_eq_false_iff_ne.mpr (Ne.symm hc)]
      rfl
    rw [List.cons_append, raGo_cons_nomatch pat tmpl pre c (s ++ r) hnm,
      ih (fun x hx => hs x (List.mem_cons_of_mem c hx)) (c :: pre) r]
    simp

/-- Core disambiguation: for distinct brace-free names, the closing part of
one placeholder pattern is not a prefix at the other placeholder. -/
theorem closeBrace_mismatch :
    ∀ (k n r : List Char), (∀ c ∈ k, c ≠ rbrace) → (∀ c ∈ n, c ≠ rbrace) → k ≠ n →
      (k ++ [rbrace, rbrace]).isPrefixOf (n ++ (rbrace :: rbrace :: r)) = false := by
  intro k
  induction k with
  | nil =>
    intro n r _ hn hne
    cases n with
    | nil => exact absurd rfl hne
    | cons d n' =>
      have hd : d ≠ rbrace := hn d (List.mem_cons_self d _)
      simp only [List.nil_append, List.cons_append, List.isPrefixOf]
      rw [beq_eq_false_iff_ne.mpr (Ne.symm hd)]
      rfl
  | cons c k' ih =>
    intro n r hk hn hne
    have hc : c ≠ rbrace := hk c (List.mem_cons_self c _)
    cases n with
    | nil =>
      simp only [List.cons_append, List.nil_append, List.isPrefixOf]
      rw [beq_eq_false_iff_ne.mpr hc]
      rfl
    | cons d n' =>
      by_cases hcd : c = d
      · subst hcd
        have hne' : k' ≠ n' := by
          intro heq
          exact hne (by rw [heq])
        simp only [List.cons_append, List.isPrefixOf, beq_self_eq_true, Bool.true_and]
        exact ih n' r (fun x hx => hk x (List.mem_cons_of_mem c hx))
          (fun x hx => hn x (List.mem_cons_of_mem c hx)) hne'
      · simp only [List.cons_append, List.isPrefixOf]
        rw [beq_eq_false_iff_ne.mpr hcd]
        rfl

theorem phPat_no_match (k n : List Char) (hk : plainName k = true)
    (hn : plainName n = true) (hne : n ≠ k) (r : List Char) :
    (phPat k).isPrefixOf (phPat n ++ r) = false := by
  have h1 : phPat n ++ r = lbrace :: lbrace :: (n ++ (rbrace :: rbrace :: r)) := by
    simp [phPat]
  rw [h1]
  show (lbrace :: lbrace :: (k ++ [rbrace, rbrace])).isPrefixOf
    (lbrace :: lbrace :: (n ++ (rbrace :: rbrace :: r))) = false
  simp only [List.isPrefixOf, beq_self_eq_true, Bool.true_and]
  exact closeBrace_mismatch k n r
    (fun c hc => alnum_ne_rbrace (plainName_alnum hk c hc))
    (fun c hc => alnum_ne_rbrace (plainName_alnum hn c hc))
    (fun heq => hne heq.symm)

/-- A placeholder with a different plain name is copied unchanged by the
scanner for `phPat k`. -/
theorem raGo_ph_nomatch (k n : List Char) (hk : plainName k = true)
    (hn : plainName n = true) (hne : n ≠ k) (tmpl : List Char) :
    ∀ pre r, raGo (phPat k) tmpl 0 pre (phPat n ++ r) =
      phPat n ++ raGo (phPat k) tmpl 0 ((phPat n).reverse ++ pre) r := by
  intro pre r
  obtain ⟨n₀, n', hn'⟩ : ∃ n₀ n', n = n₀ :: n' := by
    cases n with
    | nil => exact absurd rfl (plainName_ne_nil hn)
    | cons n₀ n' => exact ⟨n₀, n', rfl⟩
  have e1 : phPat n ++ r = lbrace :: (lbrace :: (n ++ (rbrace :: rbrace :: r))) := by
    simp [phPat]
  have h0 : (phPat k).isPrefixOf (lbrace :: (lbrace :: (n ++ (rbrace :: rbrace :: r)))) = false := by
    rw [← e1]
    exact phPat_no_match k n hk hn hne r
  have h2 : (phPat k).isPrefixOf (lbrace :: (n ++ (rbrace :: rbrace :: r))) = false := by
    show (lbrace :: lbrace :: (k ++ [rbrace, rbrace])).isPrefixOf
      (lbrace :: (n ++ (rbrace :: rbrace :: r))) = false
    subst hn'
    have hn₀ : n₀ ≠ lbrace := alnum_ne_lbrace (plainName_alnum hn n₀ (List.mem_cons_self n₀ _))
    simp only [List.cons_append, List.isPrefixOf, beq_self_eq_true, Bool.true_and]
    rw [beq_eq_false_iff_ne.mpr (Ne.symm hn₀)]
    rfl
  have hrun : ∀ c ∈ n, c ≠ lbrace := fun c hc => alnum_ne_lbrace (plainName_alnum hn c hc)
  have hrb1 : (phPat k).isPrefixOf (rbrace :: (rbrace :: r)) = false := by
    show (lbrace :: lbrace :: (k ++ [rbrace, rbrace])).isPrefixOf
      (rbrace :: (rbrace :: r)) = false
    simp only [List.isPrefixOf]
    rw [beq_eq_false_iff_ne.mpr (show lbrace ≠ rbrace by decide)]
    rfl
  have hrb2 : (phPat k).isPrefixOf (rbrace :: r) = false := by
    show (lbrace :: lbrace :: (k ++ [rbrace, rbrace])).isPrefixOf (rbrace :: r) = false
    simp only [List.isPrefixOf]
    rw [beq_eq_false_iff_ne.mpr (show lbrace ≠ rbrace by decide)]
    rfl
  rw [e1]
  rw [raGo_cons_nomatch _ _ _ _ _ h0]
  rw [raGo_cons_nomatch _ _ _ _ _ h2]
  rw [raGo_run_headMismatch (phPat k) tmpl lbrace (lbrace :: (k ++ [rbrace, rbrace])) rfl n hrun
    (lbrace :: (lbrace :: pre)) (rbrace :: (rbrace :: r))]
  rw [raGo_cons_nomatch _ _ _ _ _ hrb1]
  rw [raGo_cons_nomatch _ _ _ _ _ hrb2]
  simp [phPat]

/-- C1 counterexample: the entry `de;q=abc` gets priority `NaN`, not 1.0,
and it is not ordered as if no quality value had been given: with the
default supported set, `en;q=0.5,de;q=abc` resolves to `en`, while the same
header with the quality value omitted, `en;q=0.5,de`, resolves to `de`. -/
theorem malformed_quality_counterexample :
    (parseEntry "de;q=abc".data).priority = JsNum.nan ∧
    (parseEntry "de;q=abc".data).priority ≠ JsNum.fin 1 ∧
    getBrowserLanguage defaultConfig (some "en;q=0.5,de;q=abc".data) = "en".data ∧
    getBrowserLanguage defaultConfig (some "en;q=0.5,de".data) = "de".data ∧
    "en".data ≠ "de".data :=
  ⟨by decide, by decide, by decide, by decide, by decide⟩

/-- One replacement pass over a rendered segment list rewrites exactly the
placeholders carrying the pattern's name. -/
theorem raGo_render (k tmpl : List Char) (hk : plainName k = true)
    (htmpl : ∀ c ∈ tmpl, c ≠ '$') :
    ∀ segs : List Seg, segsOkB segs = true → ∀ pre,
      raGo (phPat k) tmpl 0 pre (render segs) = render (segs.map (replSeg k tmpl)) := by
  intro segs
  induction segs with
  | nil =>
    intro _ pre
    show raGo (phPat k) tmpl 0 pre [] = render []
    rw [raGo_nil]
    rfl
  | cons sg rest ih =>
    intro hok pre
    rw [segsOkB, List.all_cons] at hok
    obtain ⟨hsg, hrest⟩ := (Bool.and_eq_true _ _).mp hok
    have hrest' : segsOkB rest = true := hrest
    cases sg with
    | lit s =>
      have hlit : litOkB s = true := hsg
      rw [show render (Seg.lit s :: rest) = s ++ render rest by simp [render, renderSeg]]
      rw [raGo_run_headMismatch (phPat k) tmpl lbrace (lbrace :: (k ++ [rbrace, rbrace])) rfl s
        (fun c hc => (litOkB_no_brace hlit c hc).1) pre (render rest)]
      rw [ih hrest' (s.reverse ++ pre)]
      simp [render, renderSeg, replSeg]
    | ph n =>
      have hn : plainName n = true := hsg
      by_cases hnk : n = k
      · subst hnk
        rw [show render (Seg.ph n :: rest) = phPat n ++ render rest by simp [render, renderSeg]]
        rw [raGo_match (phPat n) tmpl pre (render rest) lbrace
          (lbrace :: (n ++ [rbrace, rbrace])) rfl]
        rw [expandTmpl_no_dollar _ _ _ tmpl htmpl]
        rw [ih hrest' ((phPat n).reverse ++ pre)]
        simp [render, renderSeg, replSeg]
      · rw [show render (Seg.ph n :: rest) = phPat n ++ render rest by simp [render, renderSeg]]
        rw [raGo_ph_nomatch k n hk hn hnk tmpl pre (render rest)]
        rw [ih hrest' ((phPat n).reverse ++ pre)]
        simp [render, renderSeg, replSeg, hnk]

theorem jsReplaceAll_render (k v : List Char) (hk : plainName k = true)
    (hv : ∀ c ∈ v, c ≠ '$') (segs : List Seg) (hsegs : segsOkB segs = true) :
    jsReplaceAll (phPat k) v (render segs) = render (segs.map (replSeg k v)) := by
  unfold jsReplaceAll
  rw [if_neg (phPat_ne_nil k)]
  exact raGo_render k v hk hv segs hsegs []

theorem segsOkB_replSeg (k v : List Char) (hv : valOkB v = true) (segs : List Seg)
    (h : segsOkB segs = true) : segsOkB (segs.map (replSeg k v)) = true := by
  rw [segsOkB, List.all_map]
  apply List.all_eq_true.mpr
  intro sg hsg
  rw [segsOkB] at h
  have hsg' := List.all_eq_true.mp h sg hsg
  cases sg with
  | lit s => simpa [replSeg] using hsg'
  | ph n =>
    by_cases hnk : n = k
    · simp only [Function.comp, replSeg, if_pos hnk]
      exact valOkB_no_brace hv
    · simpa [replSeg, hnk] using hsg'

theorem substSpec_nil_vars (segs : List Seg) : substSpec [] segs = render segs := by
  induction segs with
  | nil => rfl
  | cons sg rest ih =>
    show substSeg [] sg ++ substSpec [] rest = renderSeg sg ++ render rest
    rw [ih]
    congr 1

theorem substSpec_cons_var (k v : List Char) (vs : List (List Char × List Char))
    (segs : List Seg) :
    substSpec vs (segs.map (replSeg k v)) = substSpec ((k, v) :: vs) segs := by
  induction segs with
  | nil => rfl
  | cons sg rest ih =>
    show substSeg vs (replSeg k v sg) ++ substSpec vs (rest.map (replSeg k v)) =
      substSeg ((k, v) :: vs) sg ++ substSpec ((k, v) :: vs) rest
    rw [ih]
    congr 1
    cases sg with
    | lit s => rfl
    | ph n =>
      by_cases hnk : n = k
      · subst hnk
        simp [replSeg, substSeg, lookupVar]
      · simp [replSeg, substSeg, lookupVar, hnk, Ne.symm hnk]

/-- The sequential per-variable replacement fold of the source computes the
simultaneous substitution, for plain names and brace- and `$`-free values. -/
theorem interpolate_substSpec :
    ∀ (vars : List (List Char × List Char)) (segs : List Seg),
      varsOkB vars = true → segsOkB segs = true →
      interpolate vars (render segs) = substSpec vars segs := by
  intro vars
  induction vars with
  | nil =>
    intro segs _ _
    rw [substSpec_nil_vars]
    rfl
  | cons kv vs ih =>
    intro segs hvars hsegs
    obtain ⟨k, v⟩ := kv
    rw [varsOkB, List.all_cons] at hvars
    obtain ⟨hkv, hvs⟩ := (Bool.and_eq_true _ _).mp hvars
    obtain ⟨hk, hv⟩ := (Bool.and_eq_true _ _).mp hkv
    have hstep : interpolate ((k, v) :: vs) (render segs) =
        interpolate vs (jsReplaceAll (phPat k) v (render segs)) := rfl
    rw [hstep, jsReplaceAll_render k v hk (valOkB_no_dollar hv) segs hsegs]
    rw [ih (segs.map (replSeg k v)) hvs (segsOkB_replSeg k v hv segs hsegs)]
    exact substSpec_cons_var k v vs segs

/-- C2 (amended): when the resolved string decomposes into brace-free
literal chunks and placeholders whose names are non-empty, alphanumeric and
contain at least one letter, and every variable likewise has such a name and
a value without braces or `$`, `t` performs the simultaneous substitution:
every placeholder whose name is in the variable map becomes that variable's
value, and every other placeholder stays verbatim.  The letter requirement
is forced by the RegExp semantics: an all-digit name makes the inner brace
sequence a quantifier, so `\x7b\x7b2\x7d\x7d` never matches its own
placeholder text; the `$`- and brace-restrictions on values are forced by
the counterexample and the replacement-template semantics. -/
theorem t_substitutes_placeholders (i : I18nInst) (key : List Char)
    (vars : List (List Char × List Char)) (segs : List Seg)
    (hres : tResolve i key = some (TransValue.str (render segs)))
    (hsegs : segsOkB segs = true) (hvars : varsOkB vars = true) :
    tFn i key vars = substSpec vars segs := by
  unfold tFn
  rw [hres]
  exact interpolate_substSpec vars segs hvars hsegs

theorem t_substitutes_placeholders_witness :
    tFn (mkI18n defaultConfig
        [("en".data, [("greeting".data, TransValue.str "Hello, \x7b\x7bname\x7d\x7d!".data)])]
        (some "en".data))
      "greeting".data [("name".data, "Tom".data)] = "Hello, Tom!".data := by
  have h := t_substitutes_placeholders
    (mkI18n defaultConfig
      [("en".data, [("greeting".data, TransValue.str "Hello, \x7b\x7bname\x7d\x7d!".data)])]
      (some "en".data))
    "greeting".data [("name".data, "Tom".data)]
    [Seg.lit "Hello, ".data, Seg.ph "name".data, Seg.lit "!".data]
    (by rfl) (by decide) (by decide)
  rw [h]
  decide

/-- C2 counterexample: with the placeholder `\x7b\x7ba\x7d\x7d` and the
variable `a` bound to the value `$&`, the occurrence is not replaced by the
value's string form: `$&` is a replacement-template escape for the matched
text, so the output is `\x7b\x7ba\x7d\x7d` rather than `$&`. -/
theorem t_dollar_value_counterexample :
    tFn (mkI18n defaultConfig
        [("en".data, [("a".data, TransValue.str "\x7b\x7ba\x7d\x7d".data)])]
        (some "en".data))
      "a".data [("a".data, "$&".data)] = "\x7b\x7ba\x7d\x7d".data ∧
    "\x7b\x7ba\x7d\x7d".data ≠ "$&".data :=
  ⟨by decide, by decide⟩

end Paragone
